import Mathlib

/-!
Verification development for the LIME line-modelling engine (`src/lime.h`).

The header `lime.h` carries the engine's constants, data structures and the
inline functions `sourceFunc_cont`, `sourceFunc_line` and `FastExp`; those are
embedded here directly.  Components whose implementations live outside the
available sources (the statistical-equilibrium solver `stateq`, the
convergence driver `levelPops`, the photon estimator `photon`, the Delaunay
neighbour linking, and the lookup-table contents of `fastexp.c`) are modelled
from the specification, each such definition carrying a doc comment that
says so.  C `double`/`float` arithmetic is embedded as exact real arithmetic;
`float` bit patterns, which `FastExp` inspects through a union pun, are
embedded as explicit IEEE-754 single-precision bit fields.
-/

namespace Lime

/-! ### Constants from `lime.h` -/

/-- Spatial dimension, `#define DIM 3` (`lime.h` line 46). -/
def DIM : ℕ := 3

/-- Constant `HPIP = HPLANCK*CLIGHT/4.0/PI/SPI` (`lime.h` line 66). -/
def HPIP : ℝ := 8.918502221e-27

/-- Constant `HCKB = 100.*HPLANCK*CLIGHT/KBOLTZ` (`lime.h` line 67). -/
def HCKB : ℝ := 1.43877735

/-- Photon-budget cap, `#define max_phot 10000` (`lime.h` line 75). -/
def max_phot : ℕ := 10000

/-- Initial photon budget, `#define ininphot 9` (`lime.h` line 76). -/
def ininphot : ℕ := 9

/-- Population tolerance, `#define minpop 1.e-6` (`lime.h` line 77). -/
def minpop : ℝ := 1e-6

/-- Convergence target percentage, `#define goal 50` (`lime.h` line 81). -/
def goal : ℕ := 50

/-- Stability threshold on fractional population change,
`#define fixset 1e-6` (`lime.h` line 82). -/
def fixset : ℝ := 1e-6

/-- Taylor degree of the fast exponential,
`#define FAST_EXP_MAX_TAYLOR 3` (`lime.h` line 87). -/
def FAST_EXP_MAX_TAYLOR : ℕ := 3

/-! ### IEEE-754 single-precision bit fields

`FastExp` reads its `float` argument through `union {float f; int m;}` and
masks out the biased exponent field and three mantissa bit groups.  We embed
a `float` as its bit fields. -/

/-- An IEEE-754 single-precision value as the bit fields `FastExp` reads
through its union pun: sign bit, 8-bit biased exponent field `ex`, 23-bit
mantissa field `man`. -/
structure F32 where
  sign : Bool
  ex : ℕ
  man : ℕ
  hex : ex < 256
  hman : man < 2 ^ 23

/-- Real value denoted by an IEEE-754 single: a normalised number has value
`±(1 + man/2^23)·2^(ex-127)`; `ex = 0` denotes a subnormal with value
`±(man/2^23)·2^(-126)`. -/
noncomputable def F32.val (x : F32) : ℝ :=
  (if x.sign then -1 else 1) *
    (if x.ex = 0 then ((x.man : ℝ) / 2 ^ 23) * (2 : ℝ) ^ (-126 : ℤ)
     else (1 + (x.man : ℝ) / 2 ^ 23) * (2 : ℝ) ^ ((x.ex : ℤ) - 127))

/-! ### The fast exponential (`lime.h` lines 403-497) -/

/-- Modelled from the spec: the reciprocal lookup table
`extern const double oneOver_i[9]` (`lime.h` line 412), whose values are
filled in `fastexp.c`, outside the available sources.  Per its name and the
spec's description of the Taylor fallback, entry `i` holds `1/i`
(entry 0 is unused by the loop, which runs `i` from `FAST_EXP_MAX_TAYLOR`
down to 1). -/
noncomputable def oneOver_i (i : ℕ) : ℝ := if i = 0 then 0 else 1 / (i : ℝ)

/-- The Horner loop of `FastExp` (`lime.h` lines 479-485):
`result = 1.0; for (i=FAST_EXP_MAX_TAYLOR;i>0;i--) result = 1.0 - negarg*result*oneOver_i[i];`
with the counter counting down from the first argument. -/
noncomputable def taylorHorner (x : ℝ) : ℕ → ℝ → ℝ
  | 0, r => r
  | i + 1, r => taylorHorner x i (1 - x * r * oneOver_i (i + 1))

/-- Modelled from the spec: entry `[j0][l]` of `extern double EXP_TABLE_2D[128][10]`
(`lime.h` line 404), whose values are computed by `calcTableEntries` in
`fastexp.c`, outside the available sources.  Per the lookup scheme described
at `FastExp` and `calcFastExpRange`, the entry holds the exact exponential of
minus the contribution of the leading 7 mantissa bits at binary exponent
`l + lowestExponent = l - 5`: `exp(-(2^(l-5))·(1 + j0/2^7))`. -/
noncomputable def EXP_TABLE_2D (j0 l : ℕ) : ℝ :=
  Real.exp (-((2 : ℝ) ^ ((l : ℤ) - 5) * (1 + (j0 : ℝ) / 2 ^ 7)))

/-- Modelled from the spec: entry `[j][k][l]` of `extern double EXP_TABLE_3D[256][2][10]`
(`lime.h` line 405), computed by `calcTableEntries` in `fastexp.c`, outside
the available sources: the exact exponential of minus the contribution of the
middle (`k = 0`) or trailing (`k = 1`) 8 mantissa bits,
`exp(-(2^(l-5))·j/2^15)` resp. `exp(-(2^(l-5))·j/2^23)`. -/
noncomputable def EXP_TABLE_3D (j k l : ℕ) : ℝ :=
  if k = 0 then Real.exp (-((2 : ℝ) ^ ((l : ℤ) - 5) * ((j : ℝ) / 2 ^ 15)))
  else Real.exp (-((2 : ℝ) ^ ((l : ℤ) - 5) * ((j : ℝ) / 2 ^ 23)))

/-- Shallow embedding of `FastExp` (`lime.h` lines 448-497) on the IEEE-754
bit fields of its `float` argument.  `(x.ex : ℤ) - 122` is the variable `l`
(exponent field minus `exponentOffset = 122`); `numExponentsUsed = 10`; the
three mantissa bit groups `j0, j1, j2` are extracted exactly as by
`mantMask0/1/2` and `mantOffset0/1/2`. -/
noncomputable def FastExp (x : F32) : ℝ :=
  if x.val < 0 then Real.exp (-x.val)
  else if x.val = 0 then 1
  else if (x.ex : ℤ) - 122 < 0 then taylorHorner x.val FAST_EXP_MAX_TAYLOR 1
  else if 10 ≤ (x.ex : ℤ) - 122 then 0
  else
    EXP_TABLE_2D (x.man / 2 ^ 16) ((x.ex : ℤ) - 122).toNat *
      EXP_TABLE_3D (x.man / 2 ^ 8 % 2 ^ 8) 0 ((x.ex : ℤ) - 122).toNat *
      EXP_TABLE_3D (x.man % 2 ^ 8) 1 ((x.ex : ℤ) - 122).toNat

/-! ### Helper lemmas about `F32` values and `FastExp` -/

/-- Magnitude part of an IEEE-754 single is non-negative. -/
theorem F32.mag_nonneg (x : F32) :
    0 ≤ (if x.ex = 0 then ((x.man : ℝ) / 2 ^ 23) * (2 : ℝ) ^ (-126 : ℤ)
      else (1 + (x.man : ℝ) / 2 ^ 23) * (2 : ℝ) ^ ((x.ex : ℤ) - 127)) := by
  split <;> positivity

/-- Positive floats have the sign bit cleared. -/
theorem F32.sign_false_of_pos (x : F32) (h : 0 < x.val) : x.sign = false := by
  cases hs : x.sign
  · rfl
  · exfalso
    have hM := x.mag_nonneg
    rw [F32.val, hs] at h
    simp only [if_true] at h
    nlinarith

/-- Value of a positive float is its magnitude part. -/
theorem F32.val_of_pos (x : F32) (h : 0 < x.val) :
    x.val = (if x.ex = 0 then ((x.man : ℝ) / 2 ^ 23) * (2 : ℝ) ^ (-126 : ℤ)
      else (1 + (x.man : ℝ) / 2 ^ 23) * (2 : ℝ) ^ ((x.ex : ℤ) - 127)) := by
  rw [F32.val, x.sign_false_of_pos h]
  simp

/-- A float whose biased exponent field is below 122 (the Taylor region
`l < 0` of `FastExp`) has value below `2^(-5) = 1/32`. -/
theorem F32.val_lt_taylor (x : F32) (hex : x.ex < 122) : x.val < 1 / 32 := by
  have hman : (x.man : ℝ) / 2 ^ 23 < 1 := by
    rw [div_lt_one (by positivity)]
    exact_mod_cast x.hman
  have hman0 : (0 : ℝ) ≤ (x.man : ℝ) / 2 ^ 23 := by positivity
  have hmag : (if x.ex = 0 then ((x.man : ℝ) / 2 ^ 23) * (2 : ℝ) ^ (-126 : ℤ)
      else (1 + (x.man : ℝ) / 2 ^ 23) * (2 : ℝ) ^ ((x.ex : ℤ) - 127)) < 1 / 32 := by
    split
    · have h126 : ((2 : ℝ) ^ (-126 : ℤ)) ≤ (2 : ℝ) ^ (-6 : ℤ) := by
        gcongr <;> norm_num
      have h6 : ((2 : ℝ) ^ (-6 : ℤ)) = 1 / 64 := by norm_num
      nlinarith [zpow_pos (show (0:ℝ) < 2 by norm_num) (-126 : ℤ)]
    · have hz : ((2 : ℝ) ^ ((x.ex : ℤ) - 127)) ≤ (2 : ℝ) ^ (-6 : ℤ) := by
        gcongr
        · norm_num
        · omega
      have h6 : ((2 : ℝ) ^ (-6 : ℤ)) = 1 / 64 := by norm_num
      rw [h6] at hz
      have hp : (0 : ℝ) < (2 : ℝ) ^ ((x.ex : ℤ) - 127) := by positivity
      have hstep : (1 + (x.man : ℝ) / 2 ^ 23) * (2 : ℝ) ^ ((x.ex : ℤ) - 127) <
          2 * (2 : ℝ) ^ ((x.ex : ℤ) - 127) := by nlinarith
      nlinarith [hz, hstep]
  rcases le_or_lt x.val 0 with h | h
  · linarith
  · rw [x.val_of_pos h]
    exact hmag

/-- The Horner loop of `FastExp` evaluates the degree-3 Taylor polynomial
of `exp(-x)`. -/
theorem taylorHorner_three (x : ℝ) :
    taylorHorner x 3 1 = 1 - x + x ^ 2 / 2 - x ^ 3 / 6 := by
  show taylorHorner x 2 (1 - x * 1 * oneOver_i 3) = _
  show taylorHorner x 1 (1 - x * (1 - x * 1 * oneOver_i 3) * oneOver_i 2) = _
  show taylorHorner x 0 _ = _
  show (1 - x * (1 - x * (1 - x * 1 * oneOver_i 3) * oneOver_i 2) * oneOver_i 1) = _
  rw [oneOver_i, oneOver_i, oneOver_i]
  norm_num
  ring

/-- In the Taylor region (`l < 0`), `FastExp` returns the degree-3 Taylor
polynomial of `exp(-x)` produced by the Horner loop. -/
theorem FastExp_eq_taylor (x : F32) (hpos : 0 < x.val) (hex : x.ex < 122) :
    FastExp x = 1 - x.val + x.val ^ 2 / 2 - x.val ^ 3 / 6 := by
  rw [FastExp, if_neg (not_lt.mpr hpos.le), if_neg hpos.ne',
    if_pos (show (x.ex : ℤ) - 122 < 0 by omega), FAST_EXP_MAX_TAYLOR]
  exact taylorHorner_three x.val

/-- Relative-error bound of the degree-3 Taylor polynomial of `exp(-t)` on
`0 < t < 1/32`, via the alternating-series tail bound from `Real.exp_bound`. -/
theorem taylor3_relErr {t : ℝ} (h0 : 0 < t) (h1 : t < 1 / 32) :
    |(1 - t + t ^ 2 / 2 - t ^ 3 / 6) - Real.exp (-t)| / Real.exp (-t) < 1e-4 := by
  have hE : (0 : ℝ) < Real.exp (-t) := Real.exp_pos _
  rw [div_lt_iff hE]
  have habs : |(-t : ℝ)| ≤ 1 := by
    rw [abs_neg, abs_of_pos h0]
    linarith
  have hb : |Real.exp (-t) - ∑ m ∈ Finset.range 4, (-t) ^ m / (m.factorial : ℝ)| ≤
      |(-t : ℝ)| ^ 4 * (((4 : ℕ).succ : ℝ) / (((4 : ℕ).factorial : ℝ) * 4)) :=
    Real.exp_bound habs (by norm_num)
  have hsum : ∑ m ∈ Finset.range 4, (-t) ^ m / (m.factorial : ℝ) =
      1 - t + t ^ 2 / 2 - t ^ 3 / 6 := by
    simp [Finset.sum_range_succ, Nat.factorial]
    ring
  rw [hsum, abs_neg, abs_of_pos h0, abs_sub_comm] at hb
  have hfac : (((4 : ℕ).succ : ℝ) / (((4 : ℕ).factorial : ℝ) * 4)) = 5 / 96 := by
    norm_num [Nat.factorial]
  rw [hfac] at hb
  have hexp : 1 - t ≤ Real.exp (-t) := by
    have := Real.add_one_le_exp (-t)
    linarith
  have ht4 : t ^ 4 ≤ (1 / 32 : ℝ) ^ 4 := by
    apply pow_le_pow_left h0.le h1.le
  calc |(1 - t + t ^ 2 / 2 - t ^ 3 / 6) - Real.exp (-t)| ≤ t ^ 4 * (5 / 96) := hb
    _ ≤ (1 / 32 : ℝ) ^ 4 * (5 / 96) := by nlinarith
    _ < 1e-4 * (31 / 32) := by norm_num
    _ ≤ 1e-4 * (1 - t) := by nlinarith
    _ ≤ 1e-4 * Real.exp (-t) := by nlinarith

/-- Middle-bit-group table entries, with the branch on `k = 0` resolved. -/
theorem EXP_TABLE_3D_mid (j l : ℕ) :
    EXP_TABLE_3D j 0 l = Real.exp (-((2 : ℝ) ^ ((l : ℤ) - 5) * ((j : ℝ) / 2 ^ 15))) := by
  rw [EXP_TABLE_3D, if_pos rfl]

/-- Trailing-bit-group table entries, with the branch on `k = 0` resolved. -/
theorem EXP_TABLE_3D_low (j l : ℕ) :
    EXP_TABLE_3D j 1 l = Real.exp (-((2 : ℝ) ^ ((l : ℤ) - 5) * ((j : ℝ) / 2 ^ 23))) := by
  rw [EXP_TABLE_3D, if_neg (by norm_num)]

/-- In the table region (`0 ≤ l < 10`), the mantissa bit-group split and the
modelled table entries reconstruct the exact exponential of the float's
value. -/
theorem FastExp_eq_exp_table (x : F32) (hpos : 0 < x.val)
    (h1 : 122 ≤ x.ex) (h2 : x.ex < 132) : FastExp x = Real.exp (-x.val) := by
  have hL : ((((x.ex : ℤ) - 122).toNat : ℤ)) = (x.ex : ℤ) - 122 := by omega
  rw [FastExp, if_neg (not_lt.mpr hpos.le), if_neg hpos.ne',
    if_neg (show ¬((x.ex : ℤ) - 122 < 0) by omega),
    if_neg (show ¬(10 ≤ (x.ex : ℤ) - 122) by omega),
    EXP_TABLE_2D, EXP_TABLE_3D_mid, EXP_TABLE_3D_low, hL]
  have hze : ((2 : ℝ) ^ ((x.ex : ℤ) - 122 - 5)) = (2 : ℝ) ^ ((x.ex : ℤ) - 127) := by
    congr 1
    omega
  rw [hze, ← Real.exp_add, ← Real.exp_add]
  congr 1
  have hsplit : x.man / 2 ^ 16 * 2 ^ 16 + x.man / 2 ^ 8 % 2 ^ 8 * 2 ^ 8 + x.man % 2 ^ 8
      = x.man := by omega
  have hsplitR : ((x.man / 2 ^ 16 : ℕ) : ℝ) * 2 ^ 16 + ((x.man / 2 ^ 8 % 2 ^ 8 : ℕ) : ℝ) * 2 ^ 8
      + ((x.man % 2 ^ 8 : ℕ) : ℝ) = (x.man : ℝ) := by
    exact_mod_cast congrArg (fun n : ℕ => (n : ℝ)) hsplit
  have key : ((x.man / 2 ^ 16 : ℕ) : ℝ) / 2 ^ 7 + ((x.man / 2 ^ 8 % 2 ^ 8 : ℕ) : ℝ) / 2 ^ 15
      + ((x.man % 2 ^ 8 : ℕ) : ℝ) / 2 ^ 23 = (x.man : ℝ) / 2 ^ 23 := by
    field_simp
    linarith
  have hval : x.val = (1 + (x.man : ℝ) / 2 ^ 23) * (2 : ℝ) ^ ((x.ex : ℤ) - 127) := by
    rw [x.val_of_pos hpos, if_neg (by omega : ¬(x.ex = 0))]
  rw [hval]
  linear_combination (-(2 : ℝ) ^ ((x.ex : ℤ) - 127)) * key

/-- In the cutoff region (`l ≥ 10`), `FastExp` returns 0. -/
theorem FastExp_eq_zero_cutoff (x : F32) (hpos : 0 < x.val) (h : 132 ≤ x.ex) :
    FastExp x = 0 := by
  rw [FastExp, if_neg (not_lt.mpr hpos.le), if_neg hpos.ne',
    if_neg (show ¬((x.ex : ℤ) - 122 < 0) by omega),
    if_pos (show 10 ≤ (x.ex : ℤ) - 122 by omega)]

/-! ### Claims C3, C4, C5 -/

/-- Claim C3: for every float argument whose value is negative, `FastExp`
returns exactly `exp(-x)`, and for value zero it returns exactly `1.0`;
stated jointly: `FastExp(x) = exp(-x)` whenever `x ≤ 0` (boundary
passthrough to the exact exponential, `lime.h` lines 473-474). -/
theorem C3_fastExp_boundary_passthrough (x : F32) (h : x.val ≤ 0) :
    FastExp x = Real.exp (-x.val) := by
  rcases lt_or_eq_of_le h with h' | h'
  · rw [FastExp, if_pos h']
  · rw [FastExp, if_neg (not_lt.mpr h'.ge), if_pos h', h']
    simp

/-- The concrete float `-1.0`: sign bit set, exponent field 127, mantissa 0. -/
def negOneF : F32 := ⟨true, 127, 0, by norm_num, by norm_num⟩

/-- Witness for C3 at the concrete float `-1.0`. -/
theorem C3_witness :
    negOneF.val ≤ 0 ∧ FastExp negOneF = Real.exp (-negOneF.val) := by
  have hv : negOneF.val ≤ 0 := by
    unfold negOneF F32.val
    norm_num
  exact ⟨hv, C3_fastExp_boundary_passthrough negOneF hv⟩

/-- Claim C4: for every positive float in the small-argument Taylor region
(binary exponent below the lookup-table range, `l < 0`), `FastExp` evaluates
the degree-`FAST_EXP_MAX_TAYLOR` (= 3) Taylor polynomial of `exp(-x)` by the
Horner loop over the `oneOver_i` reciprocal table, and the result has
relative error below `1e-4` against the exact exponential. -/
theorem C4_fastExp_taylor_region (x : F32) (hpos : 0 < x.val) (hex : x.ex < 122) :
    FastExp x = taylorHorner x.val FAST_EXP_MAX_TAYLOR 1 ∧
      FastExp x = 1 - x.val + x.val ^ 2 / 2 - x.val ^ 3 / 6 ∧
      |FastExp x - Real.exp (-x.val)| / Real.exp (-x.val) < 1e-4 := by
  have heq := FastExp_eq_taylor x hpos hex
  have hh : FastExp x = taylorHorner x.val FAST_EXP_MAX_TAYLOR 1 := by
    rw [FastExp, if_neg (not_lt.mpr hpos.le), if_neg hpos.ne',
      if_pos (show (x.ex : ℤ) - 122 < 0 by omega)]
  refine ⟨hh, heq, ?_⟩
  rw [heq]
  exact taylor3_relErr hpos (x.val_lt_taylor hex)

/-- The concrete float `2^(-7) = 0.0078125`: exponent field 120, mantissa 0. -/
def smallF : F32 := ⟨false, 120, 0, by norm_num, by norm_num⟩

/-- Witness for C4 at the concrete float `2^(-7)`, which lies in the Taylor
region. -/
theorem C4_witness :
    0 < smallF.val ∧ smallF.ex < 122 ∧
      |FastExp smallF - Real.exp (-smallF.val)| / Real.exp (-smallF.val) < 1e-4 := by
  have hpos : 0 < smallF.val := by
    unfold smallF F32.val
    norm_num
  have hex : smallF.ex < 122 := by
    unfold smallF
    norm_num
  exact ⟨hpos, hex, (C4_fastExp_taylor_region smallF hpos hex).2.2⟩

/-- Claim C5: over the whole positive domain in which the estimator and ray
tracer use the fast exponential — Taylor region, table region, and the
cutoff region `l ≥ 10` where `FastExp` returns `0.0` — `FastExp` agrees with
`exp(-x)` to within a bounded relative error; the bound is 1 and is attained
in the cutoff region, where the difference equals `exp(-x)` itself, while in
the table region the lookup product reconstructs `exp(-x)` exactly and in the
Taylor region the relative error is below `1e-4`. -/
theorem C5_fastExp_relative_error_bounded (x : F32) (hpos : 0 < x.val) :
    |FastExp x - Real.exp (-x.val)| / Real.exp (-x.val) ≤ 1 ∧
      (132 ≤ x.ex → FastExp x = 0) := by
  constructor
  · rcases lt_or_le x.ex 122 with hex | hex
    · have heq := FastExp_eq_taylor x hpos hex
      have hrel := taylor3_relErr hpos (x.val_lt_taylor hex)
      rw [heq]
      linarith
    · rcases lt_or_le x.ex 132 with hex2 | hex2
      · rw [FastExp_eq_exp_table x hpos hex hex2]
        simp
      · rw [FastExp_eq_zero_cutoff x hpos hex2, zero_sub, abs_neg,
          abs_of_pos (Real.exp_pos _), div_self (Real.exp_pos (-x.val)).ne']
  · intro h
    exact FastExp_eq_zero_cutoff x hpos h

/-- The concrete float `2^13 = 8192.0`: exponent field 140, mantissa 0; its
binary exponent lies above the table range, so `FastExp` returns 0. -/
def bigF : F32 := ⟨false, 140, 0, by norm_num, by norm_num⟩

/-- Witness for C5 at the concrete float `8192.0`, in the cutoff region. -/
theorem C5_witness :
    0 < bigF.val ∧
      |FastExp bigF - Real.exp (-bigF.val)| / Real.exp (-bigF.val) ≤ 1 ∧
      FastExp bigF = 0 := by
  have hpos : 0 < bigF.val := by
    unfold bigF F32.val
    norm_num
  have hcut : 132 ≤ bigF.ex := by
    unfold bigF
    norm_num
  exact ⟨hpos, (C5_fastExp_relative_error_bounded bigF hpos).1,
    (C5_fastExp_relative_error_bounded bigF hpos).2 hcut⟩

/-! ### Source functions (`lime.h` lines 417-446) -/

/-- The fields of `molData` (`lime.h` lines 131-137) that `sourceFunc_line`
reads: per-line lower/upper level indices `lal`/`lau` and the Einstein
coefficients `aeinst` (A), `beinstu` (B of the upper level), `beinstl`
(B of the lower level). -/
structure MolDataLine where
  lal : ℕ → ℕ
  lau : ℕ → ℕ
  aeinst : ℕ → ℝ
  beinstu : ℕ → ℝ
  beinstl : ℕ → ℝ

/-- The fields of `struct populations` (`lime.h` lines 160-164) read by the
source functions: level populations `pops`, per-line dust opacity `knu` and
dust emission `dust`, Doppler width `dopb`, inverse line width `binv`, and
total molecular number density `nmol`. -/
structure Populations where
  pops : ℕ → ℝ
  knu : ℕ → ℝ
  dust : ℕ → ℝ
  dopb : ℝ
  binv : ℝ
  nmol : ℝ

/-- Embedding of the inline `sourceFunc_cont` (`lime.h` lines 417-430): adds
the continuum emission `dust[lineI]*knu[lineI]` to `*jnu` and the continuum
opacity `knu[lineI]` to `*alpha`; the returned pair is the whole effect of
the call. -/
noncomputable def sourceFunc_cont (gm : Populations) (lineI : ℕ) (jnu alpha : ℝ) : ℝ × ℝ :=
  (jnu + gm.dust lineI * gm.knu lineI, alpha + gm.knu lineI)

/-- Embedding of the inline `sourceFunc_line` (`lime.h` lines 432-446): with
`factor = vfac*HPIP*binv*nmol`, adds `factor*pops[lau[lineI]]*aeinst[lineI]`
to the emission accumulator `*jnu` and
`factor*(pops[lal[lineI]]*beinstl[lineI] - pops[lau[lineI]]*beinstu[lineI])`
to the absorption accumulator `*alpha`; the returned pair is the whole
effect of the call (the C function writes through its two pointers and
modifies nothing else). -/
noncomputable def sourceFunc_line (md : MolDataLine) (vfac : ℝ) (gm : Populations)
    (lineI : ℕ) (jnu alpha : ℝ) : ℝ × ℝ :=
  let factor := vfac * HPIP * gm.binv * gm.nmol
  (jnu + factor * gm.pops (md.lau lineI) * md.aeinst lineI,
    alpha + factor * (gm.pops (md.lal lineI) * md.beinstl lineI
      - gm.pops (md.lau lineI) * md.beinstu lineI))

/-- Claim C10 (amended): every call of `sourceFunc_line` adds exactly
`vfac*HPIP*binv*nmol*pops[lau]*aeinst` to the emission accumulator `*jnu`
and exactly `vfac*HPIP*binv*nmol*(pops[lal]*beinstl - pops[lau]*beinstu)`
to the absorption accumulator `*alpha`, modifying nothing else; and whenever
the factor `vfac*binv*nmol` is positive and `pops[lau]*beinstu` exceeds
`pops[lal]*beinstl` (an inverted/maser transition), the absorption increment
is strictly negative — it is not clamped to zero. -/
theorem C10_sourceFunc_line_increments (md : MolDataLine) (vfac : ℝ) (gm : Populations)
    (lineI : ℕ) (jnu alpha : ℝ) :
    (sourceFunc_line md vfac gm lineI jnu alpha).1 =
        jnu + vfac * HPIP * gm.binv * gm.nmol * gm.pops (md.lau lineI) * md.aeinst lineI ∧
      (sourceFunc_line md vfac gm lineI jnu alpha).2 =
        alpha + vfac * HPIP * gm.binv * gm.nmol *
          (gm.pops (md.lal lineI) * md.beinstl lineI
            - gm.pops (md.lau lineI) * md.beinstu lineI) ∧
      (0 < vfac * gm.binv * gm.nmol →
        gm.pops (md.lal lineI) * md.beinstl lineI
            < gm.pops (md.lau lineI) * md.beinstu lineI →
        (sourceFunc_line md vfac gm lineI jnu alpha).2 - alpha < 0) := by
  refine ⟨rfl, rfl, ?_⟩
  intro hfac hinv
  have hH : (0 : ℝ) < HPIP := by norm_num [HPIP]
  show alpha + vfac * HPIP * gm.binv * gm.nmol *
      (gm.pops (md.lal lineI) * md.beinstl lineI
        - gm.pops (md.lau lineI) * md.beinstu lineI) - alpha < 0
  have hf2 : 0 < vfac * HPIP * gm.binv * gm.nmol := by nlinarith [mul_pos hfac hH]
  have hd : gm.pops (md.lal lineI) * md.beinstl lineI
      - gm.pops (md.lau lineI) * md.beinstu lineI < 0 := by linarith
  nlinarith [mul_neg_of_pos_of_neg hf2 hd]

/-- A concrete single-line molecular record with all Einstein coefficients 1
and `lal = 0`, `lau = 1`. -/
def mdC10 : MolDataLine := ⟨fun _ => 0, fun _ => 1, fun _ => 1, fun _ => 1, fun _ => 1⟩

/-- A concrete population record with an inverted transition
(`pops 0 = 1 < 2 = pops 1`) and unit widths/density. -/
noncomputable def gmC10 : Populations :=
  ⟨fun n => if n = 0 then 1 else 2, fun _ => 0, fun _ => 0, 1, 1, 1⟩

/-- Counterexample for C10 as frozen: at `vfac = 0` the inversion
`pops[lau]*beinstu > pops[lal]*beinstl` holds, yet the absorption increment
of `sourceFunc_line` is 0, not negative. -/
theorem C10_counterexample :
    gmC10.pops (mdC10.lal 0) * mdC10.beinstl 0
        < gmC10.pops (mdC10.lau 0) * mdC10.beinstu 0 ∧
      ¬ ((sourceFunc_line mdC10 0 gmC10 0 0 0).2 - 0 < 0) := by
  constructor
  · norm_num [gmC10, mdC10]
  · show ¬ ((0 : ℝ) + 0 * HPIP * gmC10.binv * gmC10.nmol *
      (gmC10.pops (mdC10.lal 0) * mdC10.beinstl 0
        - gmC10.pops (mdC10.lau 0) * mdC10.beinstu 0) - 0 < 0)
    norm_num

/-- Witness for the amended C10 at `vfac = 1` on the inverted concrete
transition: the absorption increment is strictly negative. -/
theorem C10_witness :
    0 < (1 : ℝ) * gmC10.binv * gmC10.nmol ∧
      gmC10.pops (mdC10.lal 0) * mdC10.beinstl 0
          < gmC10.pops (mdC10.lau 0) * mdC10.beinstu 0 ∧
      (sourceFunc_line mdC10 1 gmC10 0 0 0).2 - 0 < 0 := by
  have h1 : 0 < (1 : ℝ) * gmC10.binv * gmC10.nmol := by norm_num [gmC10]
  have h2 : gmC10.pops (mdC10.lal 0) * mdC10.beinstl 0
      < gmC10.pops (mdC10.lau 0) * mdC10.beinstu 0 := by norm_num [gmC10, mdC10]
  exact ⟨h1, h2, (C10_sourceFunc_line_increments mdC10 1 gmC10 0 0 0).2.2 h1 h2⟩

/-! ### The statistical-equilibrium update (claims C1 and C8)

`stateq` (declared at `lime.h` line 373) and the LTE routines
`LTE`/`lteOnePoint` (lines 349-350) are implemented outside the available
sources; the per-vertex update they perform is modelled from the spec. -/

/-- Modelled from the spec: the Boltzmann weight of level `i` of a species
with statistical weights `gstat` and level energies `eterm` (fields of
`molData`, `lime.h` line 134) at gas temperature `T`, as used by the
closed-form LTE populations of `lteOnePoint`. -/
noncomputable def boltzWeight (gstat eterm : ℕ → ℝ) (T : ℝ) (i : ℕ) : ℝ :=
  gstat i * Real.exp (-(HCKB * eterm i) / T)

/-- Modelled from the spec: the closed-form LTE (Boltzmann) level populations
computed by `lteOnePoint` (implementation outside the available sources):
level `i` receives the fraction of the total number density `nmol`
proportional to its Boltzmann weight. -/
noncomputable def ltePops (gstat eterm : ℕ → ℝ) (T nmol : ℝ) (nlev : ℕ) : List ℝ :=
  (List.range nlev).map (fun i =>
    nmol * boltzWeight gstat eterm T i / (∑ j ∈ Finset.range nlev, boltzWeight gstat eterm T j))

/-- Modelled from the spec: the accept/reject step of `stateq`
(implementation outside the available sources).  The external LU solve of
the assembled rate matrix is abstracted by its outcome `sol`: `none` when
the solver signals a singular/ill-conditioned matrix, `some v` when it
returns the solution `v`.  `stateq` rejects a singular solve or any negative
solved population, substituting the fallback populations `lte` and
reporting rejection (`false`, which marks the vertex non-converged);
otherwise it accepts `v`. -/
noncomputable def stateqUpdate (sol : Option (List ℝ)) (lte : List ℝ) : List ℝ × Bool :=
  match sol with
  | none => (lte, false)
  | some v => if ∀ p ∈ v, 0 ≤ p then (v, true) else (lte, false)

/-- Sum of a function mapped over `List.range` as a `Finset.range` sum. -/
theorem sum_map_list_range (f : ℕ → ℝ) (n : ℕ) :
    ((List.range n).map f).sum = ∑ i ∈ Finset.range n, f i := by
  induction n with
  | zero => simp
  | succ m ih =>
      rw [List.range_succ, List.map_append, List.sum_append, Finset.sum_range_succ, ih]
      simp

/-- The Boltzmann partition sum of a species with positive statistical
weights is positive. -/
theorem boltzSum_pos (gstat eterm : ℕ → ℝ) (T : ℝ) (nlev : ℕ)
    (hg : ∀ i, 0 < gstat i) (hnlev : 0 < nlev) :
    0 < ∑ j ∈ Finset.range nlev, boltzWeight gstat eterm T j := by
  apply Finset.sum_pos
  · intro j _
    unfold boltzWeight
    exact mul_pos (hg j) (Real.exp_pos _)
  · exact Finset.nonempty_range_iff.mpr hnlev.ne'

/-- LTE populations are entrywise non-negative. -/
theorem ltePops_nonneg (gstat eterm : ℕ → ℝ) (T nmol : ℝ) (nlev : ℕ)
    (hg : ∀ i, 0 < gstat i) (hnmol : 0 ≤ nmol) (hnlev : 0 < nlev) :
    ∀ p ∈ ltePops gstat eterm T nmol nlev, 0 ≤ p := by
  intro p hp
  rw [ltePops, List.mem_map] at hp
  obtain ⟨i, _, rfl⟩ := hp
  have hZ := boltzSum_pos gstat eterm T nlev hg hnlev
  have hw : 0 < boltzWeight gstat eterm T i := by
    unfold boltzWeight
    exact mul_pos (hg i) (Real.exp_pos _)
  exact div_nonneg (mul_nonneg hnmol hw.le) hZ.le

/-- LTE populations sum exactly to the total number density. -/
theorem ltePops_sum (gstat eterm : ℕ → ℝ) (T nmol : ℝ) (nlev : ℕ)
    (hg : ∀ i, 0 < gstat i) (hnlev : 0 < nlev) :
    (ltePops gstat eterm T nmol nlev).sum = nmol := by
  have hZ := boltzSum_pos gstat eterm T nlev hg hnlev
  rw [ltePops, sum_map_list_range, ← Finset.sum_div, ← Finset.mul_sum,
    mul_div_assoc, div_self hZ.ne', mul_one]

/-- Claim C1: after any statistical-equilibrium update — an accepted
non-negative solve of the rate matrix (whose closure row fixes the total
density, hypothesis `hsol`) or the LTE fallback — the stored level
populations are entrywise non-negative and their sum equals the vertex's
total molecular number density `nmol` exactly, hence within the tolerance
`minpop = 1e-6`. -/
theorem C1_stateq_populations_invariant (sol : Option (List ℝ))
    (gstat eterm : ℕ → ℝ) (T nmol : ℝ) (nlev : ℕ)
    (hg : ∀ i, 0 < gstat i) (hnmol : 0 ≤ nmol) (hnlev : 0 < nlev)
    (hsol : ∀ v, sol = some v → v.sum = nmol) :
    (∀ p ∈ (stateqUpdate sol (ltePops gstat eterm T nmol nlev)).1, 0 ≤ p) ∧
      |(stateqUpdate sol (ltePops gstat eterm T nmol nlev)).1.sum - nmol| ≤ minpop := by
  have hlte1 := ltePops_nonneg gstat eterm T nmol nlev hg hnmol hnlev
  have hlte2 := ltePops_sum gstat eterm T nmol nlev hg hnlev
  rcases sol with _ | v
  · refine ⟨hlte1, ?_⟩
    show |(ltePops gstat eterm T nmol nlev).sum - nmol| ≤ minpop
    rw [hlte2]
    norm_num [minpop]
  · by_cases hv : ∀ p ∈ v, 0 ≤ p
    · have h1 : (stateqUpdate (some v) (ltePops gstat eterm T nmol nlev)).1 = v := by
        show (if ∀ p ∈ v, 0 ≤ p then (v, true)
          else (ltePops gstat eterm T nmol nlev, false)).1 = v
        rw [if_pos hv]
      rw [h1]
      refine ⟨hv, ?_⟩
      rw [hsol v rfl]
      norm_num [minpop]
    · have h1 : (stateqUpdate (some v) (ltePops gstat eterm T nmol nlev)).1
          = ltePops gstat eterm T nmol nlev := by
        show (if ∀ p ∈ v, 0 ≤ p then (v, true)
          else (ltePops gstat eterm T nmol nlev, false)).1 = _
        rw [if_neg hv]
      rw [h1]
      refine ⟨hlte1, ?_⟩
      rw [hlte2]
      norm_num [minpop]

/-- Witness for C1: an accepted two-level solve `[1/4, 3/4]` with total
density 1 and unit statistical weights. -/
theorem C1_witness :
    (∀ p ∈ (stateqUpdate (some [(1 : ℝ)/4, 3/4])
        (ltePops (fun _ => 1) (fun _ => 0) 1 1 2)).1, 0 ≤ p) ∧
      |(stateqUpdate (some [(1 : ℝ)/4, 3/4])
        (ltePops (fun _ => 1) (fun _ => 0) 1 1 2)).1.sum - 1| ≤ minpop := by
  apply C1_stateq_populations_invariant
  · intro i
    norm_num
  · norm_num
  · norm_num
  · intro v hv
    rw [Option.some_inj] at hv
    rw [← hv]
    norm_num

/-! ### The grid and the Convergence Driver sweep (claims C2, C8, C9)

`levelPops` (declared at `lime.h` line 346) and `photon` (line 353) are
implemented outside the available sources; the sweep they perform over the
grid is modelled from the spec. -/

/-- The per-vertex state of `struct grid` (`lime.h` lines 167-181) relevant
to the Convergence Driver: the identifier `id`, the boundary flag `sink`,
a representative static physical field `dens`, the species' total number
density `nmol` (from the vertex's `struct populations`), the photon budget
`nphot`, the convergence flag `conv`, and the level populations `pops`. -/
structure Vertex where
  id : ℕ
  sink : Bool
  dens : ℝ
  nmol : ℝ
  nphot : ℕ
  conv : Bool
  pops : List ℝ

/-- Modelled from the spec: the update applied to one non-sink vertex inside
a Convergence Driver sweep (`levelPops`, implementation outside the
available sources).  `sol` is the Estimator+rate-matrix outcome for this
vertex against the pre-sweep snapshot, `lte` its LTE fallback populations,
`stable` the post-solve stability test of `statistics`.  The populations
and the convergence flag are replaced by the `stateqUpdate` result (a
rejected solve forces `conv = false`), and the photon budget of a
not-yet-converged vertex is raised — doubled and capped at `max_phot`; the
exact escalation schedule is the spec's declared open question, and any
upward, capped rule realises it. -/
noncomputable def sweepVertex (sol : Option (List ℝ)) (lte : List ℝ)
    (stable : List ℝ → Bool) (v : Vertex) : Vertex :=
  Vertex.mk v.id v.sink v.dens v.nmol
    (if v.conv then v.nphot else min max_phot (2 * v.nphot))
    ((stateqUpdate sol lte).2 && stable (stateqUpdate sol lte).1)
    (stateqUpdate sol lte).1

/-- Modelled from the spec: one Convergence Driver sweep over the whole grid
with Jacobi semantics: every non-sink vertex `i` is updated from the same
pre-sweep snapshot `g` (`solOut g i` is the solve outcome for vertex `i`
against that snapshot); sink vertices are not touched. -/
noncomputable def sweep (solOut : List Vertex → ℕ → Option (List ℝ))
    (lteOf : Vertex → List ℝ) (stable : List ℝ → Bool)
    (g : List Vertex) : List Vertex :=
  g.mapIdx (fun i v => if v.sink then v else sweepVertex (solOut g i) (lteOf v) stable v)

/-- A sweep preserves the length of the grid. -/
theorem sweep_length (solOut : List Vertex → ℕ → Option (List ℝ))
    (lteOf : Vertex → List ℝ) (stable : List ℝ → Bool) (g : List Vertex) :
    (sweep solOut lteOf stable g).length = g.length := by
  rw [sweep, List.length_mapIdx]

/-- Pointwise description of a sweep. -/
theorem sweep_getElem? (solOut : List Vertex → ℕ → Option (List ℝ))
    (lteOf : Vertex → List ℝ) (stable : List ℝ → Bool) (g : List Vertex) (i : ℕ) :
    (sweep solOut lteOf stable g)[i]? =
      g[i]?.map (fun v => if v.sink then v else sweepVertex (solOut g i) (lteOf v) stable v) := by
  rw [sweep, List.getElem?_mapIdx]

/-- A sweep leaves every sink vertex entirely unchanged. -/
theorem sweep_sink_fixed (solOut : List Vertex → ℕ → Option (List ℝ))
    (lteOf : Vertex → List ℝ) (stable : List ℝ → Bool) (g : List Vertex) (i : ℕ)
    (v : Vertex) (hv : g[i]? = some v) (hsink : v.sink = true) :
    (sweep solOut lteOf stable g)[i]? = some v := by
  rw [sweep_getElem?, hv, Option.map_some']
  rw [if_pos hsink]

/-- The static fields of a vertex: everything except the populations, the
convergence flag and the photon budget. -/
def staticPart (v : Vertex) : ℕ × Bool × ℝ × ℝ := (v.id, v.sink, v.dens, v.nmol)

/-- Claim C2 (amended): over any number of Convergence Driver iterations the
grid keeps its length, every sink vertex's record — in particular its `pops`
vector — is left entirely unchanged, and no vertex's static fields (id, sink
flag, density, total number density) change: only non-sink vertices'
populations, convergence flags and photon budgets mutate. -/
theorem C2_sink_frame (solOut : List Vertex → ℕ → Option (List ℝ))
    (lteOf : Vertex → List ℝ) (stable : List ℝ → Bool) (g : List Vertex) (n : ℕ) :
    (((sweep solOut lteOf stable)^[n] g).length = g.length) ∧
      (∀ (i : ℕ) (v : Vertex), g[i]? = some v → v.sink = true →
        ((sweep solOut lteOf stable)^[n] g)[i]? = some v) ∧
      (∀ i : ℕ, (((sweep solOut lteOf stable)^[n] g)[i]?).map staticPart
          = (g[i]?).map staticPart) := by
  induction n with
  | zero =>
    refine ⟨rfl, ?_, fun _ => rfl⟩
    intro i v hv _
    exact hv
  | succ m ih =>
    obtain ⟨ihl, ihs, ihp⟩ := ih
    rw [Function.iterate_succ_apply']
    refine ⟨?_, ?_, ?_⟩
    · rw [sweep_length, ihl]
    · intro i v hv hs
      exact sweep_sink_fixed _ _ _ _ _ _ (ihs i v hv hs) hs
    · intro i
      rw [sweep_getElem?, ← ihp i]
      cases h : ((sweep solOut lteOf stable)^[m] g)[i]? with
      | none => rfl
      | some w =>
        simp only [Option.map_some']
        congr 1
        by_cases hs : w.sink
        · rw [if_pos hs]
        · rw [if_neg hs]
          rfl

/-- A concrete sink vertex. -/
def vSink : Vertex := ⟨0, true, 0, 0, 9, false, []⟩

/-- Witness for C2: a one-vertex grid whose single vertex is a sink is fully
unchanged after two Driver iterations. -/
theorem C2_witness :
    ([vSink][0]? = some vSink) ∧ vSink.sink = true ∧
      ((sweep (fun _ _ => none) (fun _ => []) (fun _ => true))^[2] [vSink])[0]?
        = some vSink :=
  ⟨rfl, rfl, (C2_sink_frame (fun _ _ => none) (fun _ => []) (fun _ => true)
    [vSink] 2).2.1 0 vSink rfl rfl⟩

/-- A concrete non-sink, unconverged vertex with photon budget
`ininphot = 9`. -/
def vFree : Vertex := ⟨0, false, 0, 0, ininphot, false, []⟩

/-- Counterexample for C2 as frozen (its clause that only populations and
convergence flags mutate): after one modelled Driver iteration the non-sink
vertex's photon budget has changed from 9 to 18 — the upward adaptation of
`nphot` that the spec prescribes for not-yet-converged vertices — so a field
other than `pops` and `conv` mutates. -/
theorem C2_counterexample :
    (((sweep (fun _ _ => none) (fun _ => []) (fun _ => true)) [vFree])[0]?).map Vertex.nphot
        = some 18 ∧ vFree.nphot = 9 := by
  constructor
  · rw [sweep_getElem?]
    rfl
  · rfl

/-- Replace the solve outcome of vertex `i` by `o`, leaving every other
vertex's outcome unchanged. -/
def overrideAt (solOut : List Vertex → ℕ → Option (List ℝ)) (i : ℕ)
    (o : List Vertex → Option (List ℝ)) : List Vertex → ℕ → Option (List ℝ) :=
  fun g k => if k = i then o g else solOut g k

/-- A failed solve (singular, or with a negative population) makes
`stateqUpdate` return the LTE fallback and report rejection. -/
theorem stateqUpdate_fail (sol : Option (List ℝ)) (lte : List ℝ)
    (h : sol = none ∨ ∃ w, sol = some w ∧ ∃ p ∈ w, p < 0) :
    stateqUpdate sol lte = (lte, false) := by
  rcases h with h | ⟨w, hw, p, hp, hneg⟩
  · rw [h]
    rfl
  · rw [hw]
    show (if ∀ q ∈ w, 0 ≤ q then (w, true) else (lte, false)) = (lte, false)
    rw [if_neg]
    intro hall
    exact absurd (hall p hp) (not_le.mpr hneg)

/-- Claim C8: if the rate-matrix solve at a vertex is singular or yields any
negative population, the Solver rejects the result: that vertex receives the
closed-form LTE fallback populations for this iteration and is marked
non-converged, while the sweep still covers the whole grid and every other
vertex's update is unaffected by this vertex's outcome — the error is
recovered at single-vertex scope, never aborting the sweep. -/
theorem C8_lte_fallback_local (solOut : List Vertex → ℕ → Option (List ℝ))
    (lteOf : Vertex → List ℝ) (stable : List ℝ → Bool) (g : List Vertex)
    (i : ℕ) (v : Vertex) (hv : g[i]? = some v) (hns : v.sink = false)
    (hfail : solOut g i = none ∨ ∃ w, solOut g i = some w ∧ ∃ p ∈ w, p < 0) :
    (sweep solOut lteOf stable g).length = g.length ∧
      ((sweep solOut lteOf stable g)[i]?).map Vertex.pops = some (lteOf v) ∧
      ((sweep solOut lteOf stable g)[i]?).map Vertex.conv = some false ∧
      (∀ o j, j ≠ i →
        (sweep (overrideAt solOut i o) lteOf stable g)[j]?
          = (sweep solOut lteOf stable g)[j]?) := by
  have hupd := stateqUpdate_fail (solOut g i) (lteOf v) hfail
  have hat : (sweep solOut lteOf stable g)[i]?
      = some (sweepVertex (solOut g i) (lteOf v) stable v) := by
    rw [sweep_getElem?, hv, Option.map_some', if_neg (by rw [hns]; exact Bool.false_ne_true)]
  refine ⟨sweep_length _ _ _ _, ?_, ?_, ?_⟩
  · rw [hat, Option.map_some']
    show some (stateqUpdate (solOut g i) (lteOf v)).1 = some (lteOf v)
    rw [hupd]
  · rw [hat, Option.map_some']
    show some ((stateqUpdate (solOut g i) (lteOf v)).2
      && stable (stateqUpdate (solOut g i) (lteOf v)).1) = some false
    rw [hupd]
    rfl
  · intro o j hj
    rw [sweep_getElem?, sweep_getElem?]
    have : overrideAt solOut i o g j = solOut g j := by
      rw [overrideAt]
      exact if_neg hj
    rw [this]

/-- Witness for C8: a one-vertex grid whose solve returns the negative
population `[-1]`; the vertex gets the LTE fallback `[5]` and is marked
non-converged. -/
theorem C8_witness :
    ([vFree][0]? = some vFree) ∧ vFree.sink = false ∧
      (∃ w, (fun (_ : List Vertex) (_ : ℕ) => some [(-1 : ℝ)]) [vFree] 0 = some w
        ∧ ∃ p ∈ w, p < 0) ∧
      ((sweep (fun _ _ => some [(-1 : ℝ)]) (fun _ => [5]) (fun _ => true) [vFree])[0]?).map
        Vertex.pops = some [5] := by
  have hfail : (fun (_ : List Vertex) (_ : ℕ) => some [(-1 : ℝ)]) [vFree] 0 = none ∨
      ∃ w, (fun (_ : List Vertex) (_ : ℕ) => some [(-1 : ℝ)]) [vFree] 0 = some w
        ∧ ∃ p ∈ w, p < 0 := by
    right
    exact ⟨[(-1 : ℝ)], rfl, -1, by simp, by norm_num⟩
  refine ⟨rfl, rfl, ?_, ?_⟩
  · rcases hfail with h | h
    · exact absurd h (by simp)
    · exact h
  · exact (C8_lte_fallback_local (fun _ _ => some [(-1 : ℝ)]) (fun _ => [5])
      (fun _ => true) [vFree] 0 vFree rfl rfl hfail).2.1

/-! ### The photon estimator's ray loop and budget (claim C9) -/

/-- Modelled from the spec: the per-vertex ray loop of `photon`
(implementation outside the available sources), abstracted over the running
estimator state: starting from state `acc` with remaining photon budget `b`,
a ray is issued (`addRay`) unless the budget is exhausted or the estimator's
sample variance has already fallen below the convergence goal `varGoal`;
returns the number of rays issued and the final estimator state. -/
noncomputable def issueRays {α : Type} (addRay : α → α) (variance : α → ℝ)
    (varGoal : ℝ) : ℕ → α → ℕ × α
  | 0, acc => (0, acc)
  | b + 1, acc =>
      if variance acc < varGoal then (0, acc)
      else
        ((issueRays addRay variance varGoal b (addRay acc)).1 + 1,
          (issueRays addRay variance varGoal b (addRay acc)).2)

/-- The ray loop issues at most as many rays as its budget. -/
theorem issueRays_le_budget {α : Type} (addRay : α → α) (variance : α → ℝ)
    (varGoal : ℝ) : ∀ (b : ℕ) (acc : α),
    (issueRays addRay variance varGoal b acc).1 ≤ b := by
  intro b
  induction b with
  | zero =>
    intro acc
    exact le_refl 0
  | succ m ih =>
    intro acc
    show (if variance acc < varGoal then ((0 : ℕ), acc)
      else ((issueRays addRay variance varGoal m (addRay acc)).1 + 1,
        (issueRays addRay variance varGoal m (addRay acc)).2)).1 ≤ m + 1
    split
    · exact Nat.zero_le _
    · exact Nat.succ_le_succ (ih (addRay acc))

/-- One sweep keeps a vertex's photon budget at most `max_phot` and never
decreases it. -/
theorem sweepVertex_nphot (sol : Option (List ℝ)) (lte : List ℝ)
    (stable : List ℝ → Bool) (v : Vertex) (h : v.nphot ≤ max_phot) :
    (sweepVertex sol lte stable v).nphot ≤ max_phot ∧
      v.nphot ≤ (sweepVertex sol lte stable v).nphot := by
  show (if v.conv then v.nphot else min max_phot (2 * v.nphot)) ≤ max_phot ∧
    v.nphot ≤ (if v.conv then v.nphot else min max_phot (2 * v.nphot))
  split
  · exact ⟨h, le_refl _⟩
  · exact ⟨min_le_left _ _, le_min h (by omega)⟩

/-- The budget bound `nphot ≤ max_phot` is invariant under a sweep. -/
theorem sweep_nphot_bounded (solOut : List Vertex → ℕ → Option (List ℝ))
    (lteOf : Vertex → List ℝ) (stable : List ℝ → Bool) (g : List Vertex)
    (hg : ∀ v ∈ g, v.nphot ≤ max_phot) :
    ∀ w ∈ sweep solOut lteOf stable g, w.nphot ≤ max_phot := by
  intro w hw
  rw [List.mem_iff_getElem?] at hw
  obtain ⟨i, hi⟩ := hw
  rw [sweep_getElem?] at hi
  cases hv : g[i]? with
  | none =>
    rw [hv] at hi
    exact absurd hi (by simp)
  | some v =>
    rw [hv, Option.map_some', Option.some_inj] at hi
    have hvb : v.nphot ≤ max_phot := hg v (by rw [List.mem_iff_getElem?]; exact ⟨i, hv⟩)
    rw [← hi]
    by_cases hs : v.sink
    · rw [if_pos hs]
      exact hvb
    · rw [if_neg hs]
      exact (sweepVertex_nphot _ _ _ _ hvb).1

/-- The budget bound is invariant under any number of sweeps. -/
theorem iter_nphot_bounded (solOut : List Vertex → ℕ → Option (List ℝ))
    (lteOf : Vertex → List ℝ) (stable : List ℝ → Bool) (g : List Vertex)
    (hg : ∀ v ∈ g, v.nphot ≤ max_phot) (n : ℕ) :
    ∀ w ∈ (sweep solOut lteOf stable)^[n] g, w.nphot ≤ max_phot := by
  induction n with
  | zero => exact hg
  | succ m ih =>
    rw [Function.iterate_succ_apply']
    exact sweep_nphot_bounded _ _ _ _ ih

/-- Claim C9: each per-vertex estimation terminates after finitely many rays
— the ray count of the modelled `photon` loop never exceeds its photon
budget — the photon budget itself always stays at most `max_phot = 10000`
(its initial value `ininphot = 9` satisfies this), and across outer Driver
iterations every vertex's budget is monotonically non-decreasing: for
not-yet-converged vertices it only adapts upward. -/
theorem C9_photon_budget {α : Type} (addRay : α → α) (variance : α → ℝ)
    (varGoal : ℝ) (b : ℕ) (acc : α)
    (solOut : List Vertex → ℕ → Option (List ℝ)) (lteOf : Vertex → List ℝ)
    (stable : List ℝ → Bool) (g : List Vertex)
    (hg : ∀ v ∈ g, v.nphot ≤ max_phot) :
    (issueRays addRay variance varGoal b acc).1 ≤ b ∧
      ininphot ≤ max_phot ∧
      (∀ n, ∀ w ∈ (sweep solOut lteOf stable)^[n] g, w.nphot ≤ max_phot) ∧
      (∀ (n i : ℕ) (v w : Vertex),
        ((sweep solOut lteOf stable)^[n] g)[i]? = some v →
        ((sweep solOut lteOf stable)^[n + 1] g)[i]? = some w →
        v.nphot ≤ w.nphot) := by
  refine ⟨issueRays_le_budget addRay variance varGoal b acc, by norm_num [ininphot, max_phot],
    fun n => iter_nphot_bounded solOut lteOf stable g hg n, ?_⟩
  intro n i v w hv hw
  rw [Function.iterate_succ_apply', sweep_getElem?, hv, Option.map_some',
    Option.some_inj] at hw
  have hvb : v.nphot ≤ max_phot :=
    iter_nphot_bounded solOut lteOf stable g hg n v
      (by rw [List.mem_iff_getElem?]; exact ⟨i, hv⟩)
  rw [← hw]
  by_cases hs : v.sink
  · rw [if_pos hs]
  · rw [if_neg hs]
    exact (sweepVertex_nphot _ _ _ _ hvb).2

/-- Witness for C9 on a one-vertex grid with budget `ininphot` and a
three-ray loop. -/
theorem C9_witness :
    (∀ v ∈ [vFree], v.nphot ≤ max_phot) ∧
      (issueRays (fun n => n + 1) (fun _ => 0) 1 3 (0 : ℕ)).1 ≤ 3 ∧
      (∀ n, ∀ w ∈ (sweep (fun _ _ => none) (fun _ => []) (fun _ => true))^[n] [vFree],
        w.nphot ≤ max_phot) := by
  have hg : ∀ v ∈ [vFree], v.nphot ≤ max_phot := by
    intro v hv
    rw [List.mem_singleton] at hv
    rw [hv]
    norm_num [vFree, ininphot, max_phot]
  refine ⟨hg, ?_, ?_⟩
  · exact (C9_photon_budget (fun n => n + 1) (fun _ => 0) 1 3 (0 : ℕ)
      (fun _ _ => none) (fun _ => []) (fun _ => true) [vFree] hg).1
  · exact (C9_photon_budget (fun n => n + 1) (fun _ => 0) 1 3 (0 : ℕ)
      (fun _ _ => none) (fun _ => []) (fun _ => true) [vFree] hg).2.2.1

/-! ### The Convergence Driver's state machine (claim C7) -/

/-- The phases of the Convergence Driver's state machine. -/
inductive Phase
  | unconverged
  | iterating
  | converged
  | failed

/-- Whole-driver state: current phase, completed iteration count, current
run length of consecutive stable iterations, and the grid. -/
structure DState where
  phase : Phase
  iter : ℕ
  runLen : ℕ
  grid : List Vertex

/-- Modelled from the spec: the per-vertex stability test after a sweep —
every level's fractional population change from the previous iteration is
below `fixset`. -/
def vertexStable (old new : Vertex) : Prop :=
  ∀ q ∈ old.pops.zip new.pops, |q.2 - q.1| < fixset * |q.1|

/-- The stability test is decidable (classically, over the reals). -/
noncomputable instance (old new : Vertex) : Decidable (vertexStable old new) := by
  unfold vertexStable
  infer_instance

/-- Number of vertices of the pre-sweep grid `old` whose post-sweep
populations in `new` pass the `fixset` stability test. -/
noncomputable def stableCount (old new : List Vertex) : ℕ :=
  ((old.zip new).filter (fun q => decide (vertexStable q.1 q.2))).length

/-- Modelled from the spec: the updated run length of consecutive iterations
in which the stable fraction of vertices has exceeded `goal` percent: it is
extended by one when `stableCount/length > goal/100`, else reset to zero. -/
noncomputable def nextRunLen (old new : List Vertex) (rl : ℕ) : ℕ :=
  if goal * old.length < 100 * stableCount old new then rl + 1 else 0

/-- Modelled from the spec: one transition of the Convergence Driver's state
machine (`levelPops`, implementation outside the available sources).  `f`
performs one Estimator+Solver sweep, `maxIter` is the iteration cap, and
`window` the length of the required stability run.  A fresh driver starts
iterating; each iterating step sweeps, recomputes the run length of
consecutive over-`goal` iterations, and declares CONVERGED once that run
reaches `window`, or FAILED once the iteration cap is reached; CONVERGED and
FAILED do not transition further. -/
noncomputable def driverStep (f : List Vertex → List Vertex) (maxIter window : ℕ) :
    DState → DState
  | ⟨Phase.unconverged, it, rl, g⟩ => ⟨Phase.iterating, it, rl, g⟩
  | ⟨Phase.iterating, it, rl, g⟩ =>
      if window ≤ nextRunLen g (f g) rl then
        ⟨Phase.converged, it + 1, nextRunLen g (f g) rl, f g⟩
      else if maxIter ≤ it + 1 then
        ⟨Phase.failed, it + 1, nextRunLen g (f g) rl, f g⟩
      else ⟨Phase.iterating, it + 1, nextRunLen g (f g) rl, f g⟩
  | ⟨Phase.converged, it, rl, g⟩ => ⟨Phase.converged, it, rl, g⟩
  | ⟨Phase.failed, it, rl, g⟩ => ⟨Phase.failed, it, rl, g⟩

/-- Terminal states absorb: any number of further steps is the identity. -/
theorem driverStep_absorb (f : List Vertex → List Vertex) (maxIter window : ℕ)
    (s : DState) (h : s.phase = Phase.converged ∨ s.phase = Phase.failed) (n : ℕ) :
    (driverStep f maxIter window)^[n] s = s := by
  obtain ⟨ph, it, rl, g⟩ := s
  induction n with
  | zero => rfl
  | succ m ih =>
    rw [Function.iterate_succ_apply', ih]
    rcases h with h | h <;> rw [show ph = _ from h] <;> rfl

/-- An iterating driver whose iteration cap is within reach becomes terminal
within that many steps. -/
theorem driver_terminates (f : List Vertex → List Vertex) (maxIter window : ℕ) :
    ∀ (n : ℕ) (s : DState), s.phase = Phase.iterating → maxIter ≤ s.iter + n → 1 ≤ n →
      (((driverStep f maxIter window)^[n] s).phase = Phase.converged ∨
        ((driverStep f maxIter window)^[n] s).phase = Phase.failed) := by
  intro n
  induction n with
  | zero =>
    intro s _ _ h1
    omega
  | succ m ih =>
    intro s hph hit _
    obtain ⟨ph, it, rl, g⟩ := s
    have hph' : ph = Phase.iterating := hph
    have hit' : maxIter ≤ it + (m + 1) := hit
    subst hph'
    rw [Function.iterate_succ_apply]
    by_cases h1 : window ≤ nextRunLen g (f g) rl
    · have hstep : driverStep f maxIter window ⟨Phase.iterating, it, rl, g⟩
          = ⟨Phase.converged, it + 1, nextRunLen g (f g) rl, f g⟩ := by
        show (if window ≤ nextRunLen g (f g) rl then
            (⟨Phase.converged, it + 1, nextRunLen g (f g) rl, f g⟩ : DState)
          else if maxIter ≤ it + 1 then
            ⟨Phase.failed, it + 1, nextRunLen g (f g) rl, f g⟩
          else ⟨Phase.iterating, it + 1, nextRunLen g (f g) rl, f g⟩) = _
        rw [if_pos h1]
      rw [hstep, driverStep_absorb f maxIter window _ (Or.inl rfl) m]
      exact Or.inl rfl
    · by_cases h2 : maxIter ≤ it + 1
      · have hstep : driverStep f maxIter window ⟨Phase.iterating, it, rl, g⟩
            = ⟨Phase.failed, it + 1, nextRunLen g (f g) rl, f g⟩ := by
          show (if window ≤ nextRunLen g (f g) rl then
              (⟨Phase.converged, it + 1, nextRunLen g (f g) rl, f g⟩ : DState)
            else if maxIter ≤ it + 1 then
              ⟨Phase.failed, it + 1, nextRunLen g (f g) rl, f g⟩
            else ⟨Phase.iterating, it + 1, nextRunLen g (f g) rl, f g⟩) = _
          rw [if_neg h1, if_pos h2]
        rw [hstep, driverStep_absorb f maxIter window _ (Or.inr rfl) m]
        exact Or.inr rfl
      · have hstep : driverStep f maxIter window ⟨Phase.iterating, it, rl, g⟩
            = ⟨Phase.iterating, it + 1, nextRunLen g (f g) rl, f g⟩ := by
          show (if window ≤ nextRunLen g (f g) rl then
              (⟨Phase.converged, it + 1, nextRunLen g (f g) rl, f g⟩ : DState)
            else if maxIter ≤ it + 1 then
              ⟨Phase.failed, it + 1, nextRunLen g (f g) rl, f g⟩
            else ⟨Phase.iterating, it + 1, nextRunLen g (f g) rl, f g⟩) = _
          rw [if_neg h1, if_neg h2]
        rw [hstep]
        exact ih ⟨Phase.iterating, it + 1, nextRunLen g (f g) rl, f g⟩ rfl
          (show maxIter ≤ it + 1 + m by omega) (by omega)

/-- Claim C7: the Convergence Driver realises the state machine
`UNCONVERGED → ITERATING → CONVERGED | FAILED`: a step is the identity
exactly on CONVERGED and FAILED states (those are the only terminal
states); a fresh UNCONVERGED state starts iterating with nothing else
changed; an ITERATING step sweeps and becomes CONVERGED precisely when the
run of consecutive iterations whose stable fraction (vertices with
fractional population change below `fixset`) exceeds `goal` percent reaches
the stability window, FAILED precisely when — that having not happened —
the iteration cap is reached, and otherwise keeps iterating; and from a
fresh state the machine is in a terminal phase after at most
`maxIter + 2` steps. -/
theorem C7_driver_state_machine (f : List Vertex → List Vertex) (maxIter window : ℕ) :
    (∀ s : DState, driverStep f maxIter window s = s ↔
        (s.phase = Phase.converged ∨ s.phase = Phase.failed)) ∧
      (∀ (it rl : ℕ) (g : List Vertex),
        driverStep f maxIter window ⟨Phase.unconverged, it, rl, g⟩
          = ⟨Phase.iterating, it, rl, g⟩) ∧
      (∀ (it rl : ℕ) (g : List Vertex),
        (driverStep f maxIter window ⟨Phase.iterating, it, rl, g⟩).phase =
          if window ≤ nextRunLen g (f g) rl then Phase.converged
          else if maxIter ≤ it + 1 then Phase.failed
          else Phase.iterating) ∧
      (∀ (rl : ℕ) (g : List Vertex),
        (((driverStep f maxIter window)^[maxIter + 2]
            ⟨Phase.unconverged, 0, rl, g⟩).phase = Phase.converged ∨
          ((driverStep f maxIter window)^[maxIter + 2]
            ⟨Phase.unconverged, 0, rl, g⟩).phase = Phase.failed)) := by
  refine ⟨?_, fun it rl g => rfl, ?_, ?_⟩
  · rintro ⟨ph, it, rl, g⟩
    cases ph with
    | unconverged =>
      constructor
      · intro h
        exact absurd (congrArg DState.phase h) (by simp [driverStep])
      · rintro (h | h) <;> exact absurd h (by simp)
    | iterating =>
      constructor
      · intro h
        have hi := congrArg DState.iter h
        by_cases h1 : window ≤ nextRunLen g (f g) rl
        · rw [show driverStep f maxIter window ⟨Phase.iterating, it, rl, g⟩
              = ⟨Phase.converged, it + 1, nextRunLen g (f g) rl, f g⟩ from by
            show (if window ≤ nextRunLen g (f g) rl then
                (⟨Phase.converged, it + 1, nextRunLen g (f g) rl, f g⟩ : DState)
              else if maxIter ≤ it + 1 then
                ⟨Phase.failed, it + 1, nextRunLen g (f g) rl, f g⟩
              else ⟨Phase.iterating, it + 1, nextRunLen g (f g) rl, f g⟩) = _
            rw [if_pos h1]] at hi
          have : it + 1 = it := hi
          omega
        · by_cases h2 : maxIter ≤ it + 1
          · rw [show driverStep f maxIter window ⟨Phase.iterating, it, rl, g⟩
                = ⟨Phase.failed, it + 1, nextRunLen g (f g) rl, f g⟩ from by
              show (if window ≤ nextRunLen g (f g) rl then
                  (⟨Phase.converged, it + 1, nextRunLen g (f g) rl, f g⟩ : DState)
                else if maxIter ≤ it + 1 then
                  ⟨Phase.failed, it + 1, nextRunLen g (f g) rl, f g⟩
                else ⟨Phase.iterating, it + 1, nextRunLen g (f g) rl, f g⟩) = _
              rw [if_neg h1, if_pos h2]] at hi
            exact absurd (show it + 1 = it from hi) (by omega)
          · rw [show driverStep f maxIter window ⟨Phase.iterating, it, rl, g⟩
                = ⟨Phase.iterating, it + 1, nextRunLen g (f g) rl, f g⟩ from by
              show (if window ≤ nextRunLen g (f g) rl then
                  (⟨Phase.converged, it + 1, nextRunLen g (f g) rl, f g⟩ : DState)
                else if maxIter ≤ it + 1 then
                  ⟨Phase.failed, it + 1, nextRunLen g (f g) rl, f g⟩
                else ⟨Phase.iterating, it + 1, nextRunLen g (f g) rl, f g⟩) = _
              rw [if_neg h1, if_neg h2]] at hi
            exact absurd (show it + 1 = it from hi) (by omega)
      · rintro (h | h) <;> exact absurd h (by simp)
    | converged => exact ⟨fun _ => Or.inl rfl, fun _ => rfl⟩
    | failed => exact ⟨fun _ => Or.inr rfl, fun _ => rfl⟩
  · intro it rl g
    show (if window ≤ nextRunLen g (f g) rl then
        (⟨Phase.converged, it + 1, nextRunLen g (f g) rl, f g⟩ : DState)
      else if maxIter ≤ it + 1 then
        ⟨Phase.failed, it + 1, nextRunLen g (f g) rl, f g⟩
      else ⟨Phase.iterating, it + 1, nextRunLen g (f g) rl, f g⟩).phase = _
    by_cases h1 : window ≤ nextRunLen g (f g) rl
    · rw [if_pos h1, if_pos h1]
    · rw [if_neg h1, if_neg h1]
      by_cases h2 : maxIter ≤ it + 1
      · rw [if_pos h2, if_pos h2]
      · rw [if_neg h2, if_neg h2]
  · intro rl g
    have hstart : driverStep f maxIter window ⟨Phase.unconverged, 0, rl, g⟩
        = ⟨Phase.iterating, 0, rl, g⟩ := rfl
    have h2 : (maxIter + 2) = (maxIter + 1) + 1 := by omega
    rw [h2, Function.iterate_add_apply, Function.iterate_one, hstart]
    exact driver_terminates f maxIter window (maxIter + 1)
      ⟨Phase.iterating, 0, rl, g⟩ rfl (by omega) (by omega)

/-- Witness for C7 at concrete parameters: a fresh driver starts iterating,
and a CONVERGED state is a fixed point. -/
theorem C7_witness :
    driverStep (fun g => g) 3 1 ⟨Phase.unconverged, 0, 0, []⟩
        = ⟨Phase.iterating, 0, 0, []⟩ ∧
      driverStep (fun g => g) 3 1 ⟨Phase.converged, 0, 0, []⟩
        = ⟨Phase.converged, 0, 0, []⟩ :=
  ⟨(C7_driver_state_machine (fun g => g) 3 1).2.1 0 0 [],
    ((C7_driver_state_machine (fun g => g) 3 1).1 ⟨Phase.converged, 0, 0, []⟩).mpr
      (Or.inl rfl)⟩

/-! ### Delaunay cells and ray traversal (claim C6)

`struct cell` (`lime.h` lines 232-239) carries the comment that `vertx[i]`
is assumed opposite the face abutting `neigh[i]`; the construction of cells
(`delaunay`) and the traversal (`followRayThroughDelCells`,
`getNewEntryFaceI`) are implemented outside the available sources and are
modelled from the spec. -/

/-- A Delaunay simplex as read from the triangulation output: its `DIM + 1`
vertex identifiers (the `vertx` array of `struct cell`, stored here as grid
point ids). -/
structure Simplex where
  vertx : Fin (DIM + 1) → ℕ

/-- The face/vertex correspondence of `struct cell`: candidate cell `c'`
abuts cell `c` on the face opposite vertex `i` exactly when it contains
every vertex of `c` except `vertx i`, and does not contain `vertx i`
itself. -/
def oppositeFaceMatch (c : Simplex) (i : Fin (DIM + 1)) (c' : Simplex) : Prop :=
  (∀ j, j ≠ i → ∃ k, c'.vertx k = c.vertx j) ∧ (∀ k, c'.vertx k ≠ c.vertx i)

instance (c : Simplex) (i : Fin (DIM + 1)) (c' : Simplex) :
    Decidable (oppositeFaceMatch c i c') := by
  unfold oppositeFaceMatch
  infer_instance

/-- Modelled from the spec: the neighbour-linking step of `delaunay`
(implementation outside the available sources), which fills `neigh[i]` of
cell number `ci` with (the index of) a cell abutting the face opposite
vertex `i` — `none` (the `NULL` of `lime.h` line 236) flags an external
face. -/
def buildNeigh (cells : List Simplex) (ci : ℕ) (c : Simplex) (i : Fin (DIM + 1)) :
    Option ℕ :=
  (List.range cells.length).find? (fun k =>
    decide (k ≠ ci) && match cells[k]? with
      | some c' => decide (oppositeFaceMatch c i c')
      | none => false)

/-- Modelled from the spec and its declaration (`lime.h` line 337):
`getNewEntryFaceI(dci, newCell)` returns the index of the face of the new
cell through which the ray entered, i.e. the one whose neighbour entry is
the previous cell `dci`. -/
def getNewEntryFaceI (cells : List Simplex) (dci : ℕ) (newCellI : ℕ)
    (newCell : Simplex) : Option (Fin (DIM + 1)) :=
  (List.finRange (DIM + 1)).find? (fun i => buildNeigh cells newCellI newCell i == some dci)

/-- Modelled from the spec: ray traversal (`followRayThroughDelCells`,
implementation outside the available sources) walks cell to cell through
the chosen exit faces, reading `neigh` and never modifying any cell; it
stops at an external face. -/
def traverse (cells : List Simplex) : ℕ → List (Fin (DIM + 1)) → ℕ
  | cur, [] => cur
  | cur, fi :: rest =>
      match cells[cur]? with
      | none => cur
      | some c =>
          match buildNeigh cells cur c fi with
          | none => cur
          | some nxt => traverse cells nxt rest

/-- Every neighbour link produced by the modelled construction satisfies the
opposite-face correspondence. -/
theorem buildNeigh_opposite (cells : List Simplex) (ci : ℕ) (c : Simplex)
    (i : Fin (DIM + 1)) (k : ℕ) (hk : buildNeigh cells ci c i = some k) :
    ∃ c', cells[k]? = some c' ∧ oppositeFaceMatch c i c' := by
  have hp := List.find?_some hk
  rw [Bool.and_eq_true] at hp
  obtain ⟨-, hp2⟩ := hp
  cases hc : cells[k]? with
  | none =>
    rw [hc] at hp2
    exact absurd hp2 (by simp)
  | some c' =>
    rw [hc] at hp2
    exact ⟨c', rfl, of_decide_eq_true hp2⟩

/-- Claim C6: in the modelled mesh, vertex `i` of every cell is opposite the
face it shares with neighbour cell `i` — the neighbour linked at slot `i`
contains all the cell's vertices except `vertx i` and not `vertx i` itself,
while a `none` entry flags an external face — and since ray traversal only
reads the immutable cells, the correspondence holds for every cell reached
after any number of traversal steps. -/
theorem C6_cell_face_vertex_invariant (cells : List Simplex) :
    (∀ ci : ℕ, ∀ c : Simplex, cells[ci]? = some c → ∀ i : Fin (DIM + 1), ∀ k : ℕ,
      buildNeigh cells ci c i = some k →
        ∃ c', cells[k]? = some c' ∧
          (∀ j, j ≠ i → ∃ m, c'.vertx m = c.vertx j) ∧ (∀ m, c'.vertx m ≠ c.vertx i)) ∧
      (∀ (start : ℕ) (path : List (Fin (DIM + 1))) (c : Simplex),
        cells[traverse cells start path]? = some c → ∀ i : Fin (DIM + 1), ∀ k : ℕ,
        buildNeigh cells (traverse cells start path) c i = some k →
          ∃ c', cells[k]? = some c' ∧
            (∀ j, j ≠ i → ∃ m, c'.vertx m = c.vertx j) ∧ (∀ m, c'.vertx m ≠ c.vertx i)) := by
  have base : ∀ ci : ℕ, ∀ c : Simplex, cells[ci]? = some c → ∀ i : Fin (DIM + 1), ∀ k : ℕ,
      buildNeigh cells ci c i = some k →
        ∃ c', cells[k]? = some c' ∧
          (∀ j, j ≠ i → ∃ m, c'.vertx m = c.vertx j) ∧ (∀ m, c'.vertx m ≠ c.vertx i) := by
    intro ci c _ i k hk
    obtain ⟨c', hc', hm⟩ := buildNeigh_opposite cells ci c i k hk
    exact ⟨c', hc', hm.1, hm.2⟩
  exact ⟨base, fun start path => base (traverse cells start path)⟩

/-- Two concrete tetrahedra sharing the face `{1, 2, 3}`: vertex 0 of the
first is opposite that face. -/
def demoCells : List Simplex :=
  [⟨fun j => (j : ℕ)⟩, ⟨fun j => (j : ℕ) + 1⟩]

/-- Witness for C6 on the two concrete tetrahedra: the neighbour of cell 0
linked at face 0 is cell 1, and it satisfies the opposite-face property. -/
theorem C6_witness :
    demoCells[0]? = some ⟨fun j => (j : ℕ)⟩ ∧
      buildNeigh demoCells 0 ⟨fun j => (j : ℕ)⟩ 0 = some 1 ∧
      (∃ c', demoCells[1]? = some c' ∧
        (∀ j, j ≠ (0 : Fin (DIM + 1)) → ∃ m, c'.vertx m = (⟨fun j => (j : ℕ)⟩ : Simplex).vertx j) ∧
        (∀ m, c'.vertx m ≠ (⟨fun j => (j : ℕ)⟩ : Simplex).vertx (0 : Fin (DIM + 1)))) := by
  have h0 : demoCells[0]? = some ⟨fun j => (j : ℕ)⟩ := rfl
  have hb : buildNeigh demoCells 0 ⟨fun j => (j : ℕ)⟩ 0 = some 1 := by decide
  obtain ⟨c', hc', hm1, hm2⟩ :=
    (C6_cell_face_vertex_invariant demoCells).1 0 ⟨fun j => (j : ℕ)⟩ h0 0 1 hb
  have h1 : demoCells[(1 : ℕ)]? = some c' := hc'
  exact ⟨h0, hb, c', h1, hm1, hm2⟩

